import Mathlib

/-!
Shallow embedding of `src/02_scripts/001_convert_pannagram_to_vcf.py`, the
HDF5-to-VCF conversion pipeline for the A. thaliana polymorphism data.

The script has two stages:
* `h5_to_tsv` — the Matrix Streamer: reads the per-sample character arrays
  from the HDF5 store in chunks of `chunk_size` positions, transposes them
  into per-position rows, and writes a TSV with header
  `pos <sorted sample names...>`.
* `tsv_to_vcf` — the Variant Encoder: reads the TSV back, takes the last
  header column as the reference track, and per row either skips (reference
  not a canonical base) or emits one VCF record with sorted alternate
  alleles and per-sample genotype codes.

The embedding models the HDF5 store as an association list from sample name
to its character array, TSV rows as lists of cell strings, and fallible
steps (numpy stack shape failures, Python `IndexError` on empty indexing,
`range` with step 0) in the `Except` monad.  The Python code fixes
`chunk_size = 500_000`; the chunk size is exposed here as a parameter so
that the contract (which treats it as a tunable with default 500,000) can
be stated, with `chunk_size` the source's constant.
-/

deriving instance DecidableEq for Except

namespace PannagramVcf

/-- Fatal conditions of the script, modelled as `Except` errors:
* `emptyStore` — `datasets[0]` raises `IndexError` when the store has no
  sample arrays;
* `valueError` — Python `range(0, n, 0)` rejects a zero step;
* `shapeMismatch` — `np.stack`/`np.concatenate` raise when the per-sample
  chunk slices do not all have the window's length;
* `indexError` — `bases[-1]` (or `parts[0]`) raises on an empty list. -/
inductive ConvError where
  | emptyStore
  | valueError
  | shapeMismatch
  | indexError
deriving DecidableEq, Repr

/-- Code-point lexicographic comparison of character lists: the string
ordering Python's `sorted` uses (compare by `ord` at the first differing
index; a proper prefix sorts first). -/
def lexLe : List Char → List Char → Bool
  | [], _ => true
  | _ :: _, [] => false
  | a :: as, b :: bs => if a = b then lexLe as bs else decide (a < b)

/-- Python's `<=` on strings, as a relation on Lean strings. -/
def strLe (a b : String) : Prop := lexLe a.data b.data = true

instance : DecidableRel strLe :=
  fun a b => inferInstanceAs (Decidable (lexLe a.data b.data = true))

/-- `valid_bases = {"A", "C", "G", "T"}` from the source. -/
def validBases : List String := ["A", "C", "G", "T"]

/-- `missing_bases = {"N", "-"}` from the source. -/
def missingBases : List String := ["N", "-"]

/-- The source's `chunk_size = 500_000`. -/
def chunk_size : Nat := 500000

/-- One emitted VCF data line, keeping the fields the script computes
(`ID`, `QUAL`, `FILTER`, `INFO`, `FORMAT` are the constants
`.`, `.`, `PASS`, `.`, `GT` on every line and are omitted). -/
structure VcfRecord where
  chrom : String
  pos : String
  ref : String
  alt : String
  genotypes : List String
deriving DecidableEq, Repr

/-! ## Variant Encoder (`tsv_to_vcf`) -/

/-- Python `list.index`, as used on the alternate-allele list (the source
only calls it on members, where the fallthrough case is unreachable). -/
def pyIndex (a : String) : List String → Nat
  | [] => 0
  | b :: l => if b = a then 0 else pyIndex a l + 1

/-- `sorted(set(b for b in sample_bases if b in valid_bases and b != ref_base))`. -/
def altAlleles (refBase : String) (sampleBases : List String) : List String :=
  List.insertionSort strLe
    ((sampleBases.filter (fun b => decide (b ∈ validBases ∧ b ≠ refBase))).dedup)

/-- The per-sample genotype classification of the source's inner loop. -/
def genotype (refBase : String) (altList : List String) (base : String) : String :=
  if base ∈ missingBases ∨ base ∉ validBases then "./."
  else if base = refBase then "0/0"
  else if base ∈ altList then
    let k := pyIndex base altList + 1
    toString k ++ "/" ++ toString k
  else "./."

/-- The per-row body of the `for line in fin` loop: `parts` is the
tab-split line.  `parts[0]` is the position, `bases = parts[1:]`,
`ref_base = bases[-1]` (an `IndexError` when `bases` is empty),
`sample_bases = bases[:-1]`.  A non-canonical reference skips the row
(`.ok none`); otherwise one record is produced. -/
def encodeRow (chrom : String) (parts : List String) : Except ConvError (Option VcfRecord) :=
  match parts with
  | [] => .error .indexError
  | position :: bases =>
    match bases.getLast? with
    | none => .error .indexError
    | some refBase =>
      let sampleBases := bases.dropLast
      if refBase ∉ validBases then .ok none
      else
        let altList := altAlleles refBase sampleBases
        .ok (some
          { chrom := chrom
            pos := position
            ref := refBase
            alt := if altList.isEmpty then "." else String.intercalate "," altList
            genotypes := sampleBases.map (genotype refBase altList) })

/-- The row loop: rows are consumed in order; a skip continues, an error
aborts the stage. -/
def encodeRows (chrom : String) : List (List String) → Except ConvError (List VcfRecord)
  | [] => .ok []
  | r :: rs =>
    match encodeRow chrom r with
    | .error e => .error e
    | .ok none => encodeRows chrom rs
    | .ok (some v) =>
      match encodeRows chrom rs with
      | .error e => .error e
      | .ok vs => .ok (v :: vs)

/-- `samples = header[1:-1]` — all header columns except the first (`pos`)
and the last (the reference track). -/
def samplesOf (header : List String) : List String := (header.drop 1).dropLast

/-- `ref_name = header[-1]` — the last header column names the reference. -/
def refNameOf (header : List String) : String := header.getLastD ""

/-- `tsv_to_vcf`: splits the header into sample columns and reference
name, then encodes every data row in order.  The result carries the VCF
column-header sample list, the reference name, and the emitted records. -/
def tsv_to_vcf (chrom : String) (header : List String) (rows : List (List String)) :
    Except ConvError (List String × String × List VcfRecord) :=
  match encodeRows chrom rows with
  | .error e => .error e
  | .ok recs => .ok (samplesOf header, refNameOf header, recs)

/-! ## Matrix Streamer (`h5_to_tsv`) -/

/-- The HDF5 store `f["accs"]`: named one-dimensional character arrays. -/
abbrev Store := List (String × List Char)

/-- `sample_names = sorted(f["accs"].keys())`. -/
def sortedNames (store : Store) : List String :=
  List.insertionSort strLe (store.map Prod.fst)

/-- `f["accs"][name]` for a name taken from the store's keys. -/
def arrOf (store : Store) (name : String) : List Char :=
  (store.lookup name).getD []

/-- `datasets = [f["accs"][name] for name in sample_names]`. -/
def datasetsOf (store : Store) : List (List Char) :=
  (sortedNames store).map (arrOf store)

/-- `num_positions = datasets[0].shape[0]` (length of the first sorted
sample's array; the script never compares the other arrays' lengths). -/
def numPositions (store : Store) : Nat :=
  ((datasetsOf store).headD []).length

/-- `ds[start:stop]` — h5py/numpy basic slicing clips to the array bounds. -/
def pySlice (l : List Char) (start stop : Nat) : List Char :=
  (l.drop start).take (stop - start)

/-- One window `[start, stop)` of the chunk loop: slice every dataset,
`np.stack(..., axis=1)` them and prepend the 1-based position column.
`np.stack` requires all slices to share one shape and `np.concatenate`
requires that shape to match the position column's `stop - start` rows,
so the window succeeds exactly when every slice has length
`stop - start`; otherwise numpy raises (`shapeMismatch`). -/
def chunkRows (datasets : List (List Char)) (start stop : Nat) :
    Except ConvError (List (Nat × List Char)) :=
  let slices := datasets.map (fun ds => pySlice ds start stop)
  if slices.all (fun s => decide (s.length = stop - start)) then
    .ok ((List.range (stop - start)).map (fun i =>
      (start + i + 1, slices.map (fun s => s.getD i '?'))))
  else .error .shapeMismatch

/-- Python's `range(start, n, c)` for a positive step `c`: the successive
chunk starts `start, start + c, start + 2c, …` while below `n` —
`(n - start + c - 1) / c` of them. -/
def startsFrom (n c start : Nat) : List Nat :=
  (List.range ((n - start + c - 1) / c)).map (fun i => start + i * c)

/-- The chunk loop body, iterated over the materialized list of window
starts; each window covers `[start, min (start + c) n)`.  Any window
failure aborts the loop. -/
def streamChunks (datasets : List (List Char)) (n c : Nat) :
    List Nat → Except ConvError (List (Nat × List Char))
  | [] => .ok []
  | start :: rest =>
    match chunkRows datasets start (min (start + c) n) with
    | .error e => .error e
    | .ok rows =>
      match streamChunks datasets n c rest with
      | .error e => .error e
      | .ok more => .ok (rows ++ more)

/-- `h5_to_tsv`: sorts the sample names, takes `num_positions` from the
first dataset, and runs `for start in range(0, num_positions, chunk_size)`
(a zero chunk size is Python's `range` step-zero `ValueError`).  The
result is the TSV content: the sorted sample-name columns of the header
(the `pos` column is the fixed prefix) and the data rows, each a 1-based
position with one character per sample in header order. -/
def h5_to_tsv (store : Store) (c : Nat) :
    Except ConvError (List String × List (Nat × List Char)) :=
  match datasetsOf store with
  | [] => .error .emptyStore
  | d0 :: _ =>
    if c = 0 then .error .valueError
    else
      match streamChunks (datasetsOf store) d0.length c (startsFrom d0.length c 0) with
      | .error e => .error e
      | .ok rows => .ok (sortedNames store, rows)

/-- A streamed row as the TSV line the encoder re-reads: the position
rendered in decimal, then one single-character cell per sample. -/
def rowToParts (r : Nat × List Char) : List String :=
  toString r.1 :: r.2.map (fun ch => String.mk [ch])

/-- The whole script: stream the store to the intermediate rows, then
encode them against the header `pos <sorted names...>`. -/
def pipeline (store : Store) (chrom : String) (c : Nat) :
    Except ConvError (List String × String × List VcfRecord) :=
  match h5_to_tsv store c with
  | .error e => .error e
  | .ok (names, rows) => tsv_to_vcf chrom ("pos" :: names) (rows.map rowToParts)

/-! ## Order facts about the embedded string comparison -/

theorem lexLe_refl (as : List Char) : lexLe as as = true := by
  induction as with
  | nil => rfl
  | cons a as ih => simp [lexLe, ih]

theorem lexLe_total : ∀ as bs : List Char, lexLe as bs = true ∨ lexLe bs as = true
  | [], _ => Or.inl rfl
  | _ :: _, [] => Or.inr rfl
  | a :: as, b :: bs => by
    by_cases hab : a = b
    · subst hab
      simpa [lexLe] using lexLe_total as bs
    · rcases lt_or_gt_of_ne hab with h | h
      · left; simp [lexLe, hab, h]
      · right; simp [lexLe, Ne.symm hab, h]

theorem lexLe_trans : ∀ as bs cs : List Char,
    lexLe as bs = true → lexLe bs cs = true → lexLe as cs = true
  | [], _, _ => fun _ _ => rfl
  | _ :: _, [], _ => fun h _ => by simp [lexLe] at h
  | _ :: _, _ :: _, [] => fun _ h => by simp [lexLe] at h
  | a :: as, b :: bs, c :: cs => fun h1 h2 => by
    by_cases hab : a = b <;> by_cases hbc : b = c
    · subst hab; subst hbc
      simp only [lexLe, if_pos rfl] at h1 h2 ⊢
      exact lexLe_trans as bs cs h1 h2
    · subst hab
      simp only [lexLe, if_pos rfl, if_neg hbc, decide_eq_true_eq] at h2 ⊢
      simpa [ne_of_lt h2] using h2
    · subst hbc
      simp only [lexLe, if_neg hab, decide_eq_true_eq] at h1 ⊢
      simpa [ne_of_lt h1] using h1
    · simp only [lexLe, if_neg hab, if_neg hbc, decide_eq_true_eq] at h1 h2
      have hac : a < c := lt_trans h1 h2
      simp [lexLe, ne_of_lt hac, hac]

theorem strLe_refl (a : String) : strLe a a := lexLe_refl a.data

instance : IsTotal String strLe := ⟨fun a b => lexLe_total a.data b.data⟩

instance : IsTrans String strLe :=
  ⟨fun a b c h1 h2 => lexLe_trans a.data b.data c.data h1 h2⟩

/-- In a `strLe`-sorted list every member is at most the last element. -/
theorem strLe_getLastD_of_sorted :
    ∀ {l : List String}, l.Sorted strLe → ∀ {a}, a ∈ l → ∀ d, strLe a (l.getLastD d) := by
  intro l
  induction l with
  | nil => intro _ a ha; cases ha
  | cons x xs ih =>
    intro hs a ha d
    rw [List.getLastD_cons]
    rcases List.mem_cons.1 ha with rfl | hmem
    · cases xs with
      | nil => exact strLe_refl a
      | cons y ys =>
        have hxy : strLe a y := (List.sorted_cons.1 hs).1 y (by simp)
        have hy : strLe y ((y :: ys).getLastD a) :=
          ih (List.sorted_cons.1 hs).2 (by simp) a
        exact lexLe_trans _ _ _ hxy hy
    · exact ih (List.sorted_cons.1 hs).2 hmem x

/-! ## Variant Encoder lemmas -/

/-- The canonical and missing alphabets are disjoint. -/
theorem valid_not_missing : ∀ b ∈ validBases, b ∉ missingBases := by decide

/-- Membership in the discovered alternate list: exactly the canonical
sample calls that differ from the reference. -/
theorem mem_altAlleles {refBase b : String} {sampleBases : List String} :
    b ∈ altAlleles refBase sampleBases ↔
      b ∈ sampleBases ∧ b ∈ validBases ∧ b ≠ refBase := by
  simp [altAlleles, List.mem_filter, and_assoc]

/-- Canonical shape of a row: position, sample columns, reference column. -/
theorem encodeRow_eq (chrom position refBase : String) (sampleBases : List String) :
    encodeRow chrom (position :: (sampleBases ++ [refBase])) =
      if refBase ∉ validBases then .ok none
      else .ok (some
        { chrom := chrom, pos := position, ref := refBase,
          alt := if (altAlleles refBase sampleBases).isEmpty then "."
                 else String.intercalate "," (altAlleles refBase sampleBases),
          genotypes := sampleBases.map (genotype refBase (altAlleles refBase sampleBases)) }) := by
  simp [encodeRow, List.getLast?_concat, List.dropLast_concat]

/-- Any row with a position column and at least one base column encodes
without an error (possibly to a skip). -/
theorem encodeRow_isOk {parts : List String} (h : 2 ≤ parts.length) (chrom : String) :
    ∃ o, encodeRow chrom parts = .ok o := by
  match parts, h with
  | p :: b :: rest, _ =>
    rcases hlast : (b :: rest).getLast? with _ | refBase
    · exact absurd (List.getLast?_eq_none_iff.1 hlast) (by simp)
    · by_cases hv : refBase ∉ validBases
      · exact ⟨none, by simp [encodeRow, hlast, hv]⟩
      · refine ⟨some
          { chrom := chrom, pos := p, ref := refBase,
            alt := if (altAlleles refBase ((b :: rest).dropLast)).isEmpty then "."
                   else String.intercalate "," (altAlleles refBase ((b :: rest).dropLast)),
            genotypes := ((b :: rest).dropLast).map
              (genotype refBase (altAlleles refBase ((b :: rest).dropLast))) }, ?_⟩
        simp [encodeRow, hlast, hv]

/-! ## Matrix Streamer lemmas -/

theorem length_pySlice (l : List Char) (start stop : Nat) :
    (pySlice l start stop).length = min (stop - start) (l.length - start) := by
  simp [pySlice]

/-- The rows the streamer produces for positions `[start, n)` when every
window succeeds: 1-based position and one call per dataset. -/
def fullRows (datasets : List (List Char)) (start n : Nat) : List (Nat × List Char) :=
  (List.range' start (n - start)).map
    (fun j => (j + 1, datasets.map (fun ds => ds.getD j '?')))

theorem chunkRows_ok {datasets : List (List Char)} {start stop : Nat}
    (hss : start ≤ stop) (h : ∀ ds ∈ datasets, stop ≤ ds.length) :
    chunkRows datasets start stop =
      .ok ((List.range' start (stop - start)).map
        (fun j => (j + 1, datasets.map (fun ds => ds.getD j '?')))) := by
  simp only [chunkRows]
  rw [if_pos]
  · congr 1
    apply List.ext_getElem
    · simp
    · intro i h1 h2
      simp only [List.getElem_map, List.getElem_range, List.getElem_range']
      have hi : i < stop - start := by simpa using h1
      refine Prod.ext (by omega) ?_
      simp only [List.map_map]
      refine List.map_congr_left (fun ds hds => ?_)
      have hlen : stop ≤ ds.length := h ds hds
      simp only [Function.comp_apply, List.getD_eq_getElem?_getD, pySlice,
        List.getElem?_take_of_lt hi, List.getElem?_drop]
      norm_num
  · rw [List.all_eq_true]
    intro s hs
    rcases List.mem_map.1 hs with ⟨ds, hds, rfl⟩
    have := h ds hds
    rw [decide_eq_true_eq, length_pySlice]
    omega

theorem chunkRows_err {datasets : List (List Char)} {start stop : Nat}
    (hlt : start < stop) (hbad : ∃ ds ∈ datasets, ds.length < stop) :
    chunkRows datasets start stop = .error .shapeMismatch := by
  rcases hbad with ⟨ds, hds, hlen⟩
  simp only [chunkRows]
  rw [if_neg]
  intro hall
  rw [List.all_eq_true] at hall
  have := hall (pySlice ds start stop) (List.mem_map_of_mem _ hds)
  rw [decide_eq_true_eq, length_pySlice] at this
  omega

/-- Unfolding rule for the chunk-start list: Python's
`range(start, n, c)` is `start` followed by `range(start + c, n, c)`
while `start < n`. -/
theorem startsFrom_eq {c : Nat} (hc : 0 < c) (n start : Nat) :
    startsFrom n c start =
      if start < n then start :: startsFrom n c (start + c) else [] := by
  by_cases h : start < n
  · rw [if_pos h]
    have h1 : (n - start + c - 1) / c = (n - (start + c) + c - 1) / c + 1 := by
      by_cases h2 : start + c < n
      · have e1 : n - (start + c) + c - 1 + c = n - start + c - 1 := by omega
        rw [← e1, Nat.add_div_right _ hc]
      · rw [Nat.div_eq_of_lt (show n - (start + c) + c - 1 < c by omega)]
        exact Nat.div_eq_of_lt_le (by omega) (by omega)
    rw [startsFrom, h1, List.range_succ_eq_map, startsFrom]
    simp only [List.map_cons, Nat.zero_mul, Nat.add_zero, List.map_map]
    refine congrArg (start :: ·) ?_
    refine List.map_congr_left (fun i _ => ?_)
    simp only [Function.comp_apply, Nat.succ_eq_add_one]
    ring
  · rw [if_neg h, startsFrom]
    have h0 : n - start = 0 := by omega
    rw [h0, Nat.div_eq_of_lt (by omega)]
    rfl

/-- Rows of the window `[start, min (start + c) n)` followed by the rows
of `[start + c, n)` are exactly the rows of `[start, n)`. -/
theorem fullRows_append {datasets : List (List Char)} {n c start : Nat}
    (hst : start < n) :
    ((List.range' start (min (start + c) n - start)).map
        (fun j => (j + 1, datasets.map (fun ds => ds.getD j '?')))) ++
      fullRows datasets (start + c) n = fullRows datasets start n := by
  by_cases hle : start + c ≤ n
  · have h1 : min (start + c) n = start + c := by omega
    rw [h1, fullRows, fullRows, ← List.map_append]
    congr 1
    have h2 : start + c - start = c := by omega
    rw [h2, List.range'_append_1]
    congr 1
    omega
  · have h1 : min (start + c) n = n := by omega
    have h2 : n - (start + c) = 0 := by omega
    rw [fullRows, fullRows, h1, h2]
    simp

/-- When every dataset reaches `n` positions, the whole chunk loop
succeeds and produces the transposed rows, independent of `c`. -/
theorem streamChunks_ok {datasets : List (List Char)} {n c : Nat} (hc : 0 < c)
    (hlen : ∀ ds ∈ datasets, n ≤ ds.length) (start : Nat) :
    streamChunks datasets n c (startsFrom n c start) = .ok (fullRows datasets start n) := by
  suffices H : ∀ k start, n - start ≤ k →
      streamChunks datasets n c (startsFrom n c start) = .ok (fullRows datasets start n) from
    H (n - start) start le_rfl
  intro k
  induction k with
  | zero =>
    intro start h0
    rw [startsFrom_eq hc, if_neg (by omega), fullRows,
      (by omega : n - start = 0)]
    rfl
  | succ k ih =>
    intro start hk
    by_cases hst : start < n
    · rw [startsFrom_eq hc, if_pos hst]
      have hcr := @chunkRows_ok datasets start (min (start + c) n)
        (by omega)
        (fun ds hds => le_trans (by omega) (hlen ds hds))
      simp only [streamChunks, hcr, ih (start + c) (by omega)]
      rw [fullRows_append hst]
    · rw [startsFrom_eq hc, if_neg hst, fullRows, (by omega : n - start = 0)]
      rfl

/-- When some dataset is shorter than `n`, the chunk loop started below
`n` fails with the stack shape error, whatever `c` is. -/
theorem streamChunks_err {datasets : List (List Char)} {n c : Nat} (hc : 0 < c)
    (hbad : ∃ ds ∈ datasets, ds.length < n) :
    ∀ start, start < n →
      streamChunks datasets n c (startsFrom n c start) = .error .shapeMismatch := by
  suffices H : ∀ k start, n - start ≤ k → start < n →
      streamChunks datasets n c (startsFrom n c start) = .error .shapeMismatch from
    fun start h => H (n - start) start le_rfl h
  intro k
  induction k with
  | zero => intro start h0 hst; omega
  | succ k ih =>
    intro start hk hst
    rw [startsFrom_eq hc, if_pos hst]
    by_cases hbad2 : ∃ ds ∈ datasets, ds.length < min (start + c) n
    · simp only [streamChunks,
        chunkRows_err (show start < min (start + c) n by omega) hbad2]
    · push_neg at hbad2
      have hcr := @chunkRows_ok datasets start (min (start + c) n)
        (by omega) hbad2
      rcases hbad with ⟨ds, hds, hlen⟩
      have hstopn : min (start + c) n < n := by
        have := hbad2 ds hds
        omega
      simp only [streamChunks, hcr, ih (start + c) (by omega) (by omega)]

/-- The streamer reads one dataset per store entry. -/
theorem datasetsOf_length (store : Store) :
    (datasetsOf store).length = store.length := by
  simp [datasetsOf, sortedNames,
    (List.perm_insertionSort strLe (store.map Prod.fst)).length_eq]

/-- Success characterization of the streamer: when every sample array
reaches `num_positions` (the first sorted sample's length), the run
succeeds and emits one row per position, independent of the chunk size. -/
theorem h5_to_tsv_ok {store : Store} {c : Nat} (hne : store ≠ []) (hc : 0 < c)
    (hlen : ∀ ds ∈ datasetsOf store, numPositions store ≤ ds.length) :
    h5_to_tsv store c =
      .ok (sortedNames store, fullRows (datasetsOf store) 0 (numPositions store)) := by
  rcases hd : datasetsOf store with _ | ⟨d0, rest⟩
  · exfalso
    have hl := datasetsOf_length store
    rw [hd] at hl
    exact hne (List.length_eq_zero.1 hl.symm)
  · have hnum : numPositions store = d0.length := by rw [numPositions, hd]; rfl
    rw [hd, hnum] at hlen
    rw [h5_to_tsv, hd]
    simp only [if_neg (show ¬ c = 0 by omega), streamChunks_ok hc hlen 0]
    rw [← hd, ← hnum]

/-- Failure characterization of the streamer: when some sample array is
shorter than `num_positions`, the run aborts with the stack shape error,
independent of the chunk size. -/
theorem h5_to_tsv_err {store : Store} {c : Nat} (hne : store ≠ []) (hc : 0 < c)
    (hbad : ∃ ds ∈ datasetsOf store, ds.length < numPositions store) :
    h5_to_tsv store c = .error .shapeMismatch := by
  rcases hd : datasetsOf store with _ | ⟨d0, rest⟩
  · exfalso
    have hl := datasetsOf_length store
    rw [hd] at hl
    exact hne (List.length_eq_zero.1 hl.symm)
  · have hnum : numPositions store = d0.length := by rw [numPositions, hd]; rfl
    rw [hd, hnum] at hbad
    have hpos : 0 < d0.length := by
      rcases hbad with ⟨ds, _, hds⟩
      omega
    rw [h5_to_tsv, hd]
    simp only [if_neg (show ¬ c = 0 by omega), streamChunks_err hc hbad 0 hpos]

/-! ## Genotype classification lemmas -/

theorem genotype_missing {refBase base : String} (altList : List String)
    (h : base ∈ missingBases ∨ base ∉ validBases) :
    genotype refBase altList base = "./." := by
  rw [genotype, if_pos h]

theorem genotype_ref {refBase : String} (altList : List String)
    (h : refBase ∈ validBases) :
    genotype refBase altList refBase = "0/0" := by
  rw [genotype, if_neg, if_pos rfl]
  rintro (hm | hnv)
  · exact valid_not_missing refBase h hm
  · exact hnv h

theorem genotype_alt {refBase base : String} {altList : List String}
    (hv : base ∈ validBases) (hne : base ≠ refBase) (hmem : base ∈ altList) :
    genotype refBase altList base =
      toString (pyIndex base altList + 1) ++ "/" ++ toString (pyIndex base altList + 1) := by
  rw [genotype, if_neg, if_neg hne, if_pos hmem]
  rintro (hm | hnv)
  · exact valid_not_missing base hv hm
  · exact hnv hv

/-! ## Claim theorems: Variant Encoder -/

/-- C3: for a row with sample calls `[A, G, C, A]` and reference `A`, the
encoder discovers the alternate set `{G, C}`, sorts it lexicographically
to `[C, G]` (indices assigned by sorted value, `C ↦ 1`, `G ↦ 2`, not by
first appearance, which would give `G ↦ 1`), and emits the genotype codes
`0/0, 2/2, 1/1, 0/0` in sample order. -/
theorem c3_allele_sort_example :
    altAlleles "A" ["A", "G", "C", "A"] = ["C", "G"] ∧
    encodeRow "chr" ["10", "A", "G", "C", "A", "A"] =
      .ok (some { chrom := "chr", pos := "10", ref := "A", alt := "C,G",
                  genotypes := ["0/0", "2/2", "1/1", "0/0"] }) := by decide

/-- C6: a row whose reference character (last column) is not a canonical
base is silently dropped — the encoder emits no record, raises no error,
and row processing continues with the remaining rows. -/
theorem c6_ambiguous_ref_skip (chrom position refBase : String)
    (sampleBases : List String) (rest : List (List String))
    (href : refBase ∉ validBases) :
    encodeRow chrom (position :: (sampleBases ++ [refBase])) = .ok none ∧
    encodeRows chrom ((position :: (sampleBases ++ [refBase])) :: rest) =
      encodeRows chrom rest := by
  have h1 : encodeRow chrom (position :: (sampleBases ++ [refBase])) = .ok none := by
    rw [encodeRow_eq, if_pos href]
  exact ⟨h1, by simp [encodeRows, h1]⟩

theorem c6_ambiguous_ref_skip_witness :
    encodeRow "chr" ["3", "A", "N"] = .ok none ∧
    encodeRows "chr" [["3", "A", "N"], ["4", "A", "A"]] =
      encodeRows "chr" [["4", "A", "A"]] :=
  c6_ambiguous_ref_skip "chr" "3" "N" ["A"] [["4", "A", "A"]] (by decide)

/-- C7: in every emitted record, a sample whose call is `N`, `-`, or any
string outside the canonical alphabet `{A,C,G,T}` is assigned the missing
genotype code `./.`. -/
theorem c7_missing_calls (chrom : String) (parts : List String) (rec : VcfRecord)
    (h : encodeRow chrom parts = .ok (some rec)) (i : Nat)
    (hi : i < (parts.drop 1).dropLast.length)
    (hb : (parts.drop 1).dropLast.getD i "" = "N" ∨
          (parts.drop 1).dropLast.getD i "" = "-" ∨
          (parts.drop 1).dropLast.getD i "" ∉ validBases) :
    rec.genotypes.getD i "" = "./." := by
  cases parts with
  | nil => exact absurd h (by simp [encodeRow])
  | cons position bases =>
    rcases hlast : bases.getLast? with _ | refBase
    · simp [encodeRow, hlast] at h
    · simp only [encodeRow, hlast] at h
      by_cases hv : refBase ∉ validBases
      · rw [if_pos hv] at h
        simp at h
      · rw [if_neg hv] at h
        simp only [Except.ok.injEq, Option.some.injEq] at h
        subst h
        have hdrop : (position :: bases).drop 1 = bases := rfl
        rw [hdrop] at hi hb
        have hi' : i < bases.dropLast.length := hi
        simp only [List.getD_eq_getElem?_getD, List.getElem?_map,
          List.getElem?_eq_getElem hi', Option.map_some', Option.getD_some] at hb ⊢
        apply genotype_missing
        rcases hb with hb | hb | hb
        · left; rw [hb]; decide
        · left; rw [hb]; decide
        · right; exact hb

theorem c7_missing_calls_witness :
    ∃ rec, encodeRow "chr" ["5", "N", "-", "Z", "A", "A"] = .ok (some rec) ∧
      rec.genotypes.getD 0 "" = "./." ∧
      rec.genotypes.getD 1 "" = "./." ∧
      rec.genotypes.getD 2 "" = "./." := by
  refine ⟨{ chrom := "chr", pos := "5", ref := "A", alt := ".",
            genotypes := ["./.", "./.", "./.", "0/0"] }, by decide, ?_, ?_, ?_⟩
  · exact c7_missing_calls "chr" ["5", "N", "-", "Z", "A", "A"] _ (by decide) 0
      (by decide) (by decide)
  · exact c7_missing_calls "chr" ["5", "N", "-", "Z", "A", "A"] _ (by decide) 1
      (by decide) (by decide)
  · exact c7_missing_calls "chr" ["5", "N", "-", "Z", "A", "A"] _ (by decide) 2
      (by decide) (by decide)

/-- C8: a row with a canonical reference in which every sample call
equals the reference yields the sentinel ALT field `.` and the genotype
code `0/0` for every sample. -/
theorem c8_no_alternate (chrom position refBase : String) (sampleBases : List String)
    (h1 : refBase ∈ validBases) (h2 : ∀ b ∈ sampleBases, b = refBase) :
    encodeRow chrom (position :: (sampleBases ++ [refBase])) =
      .ok (some { chrom := chrom, pos := position, ref := refBase, alt := ".",
                  genotypes := sampleBases.map (fun _ => "0/0") }) := by
  have halt : altAlleles refBase sampleBases = [] := by
    rw [altAlleles]
    have hfil : sampleBases.filter (fun b => decide (b ∈ validBases ∧ b ≠ refBase)) = [] := by
      rw [List.filter_eq_nil_iff]
      intro b hb
      simp [h2 b hb]
    rw [hfil]
    rfl
  have hmap : sampleBases.map (genotype refBase ([] : List String)) =
      sampleBases.map (fun _ => "0/0") :=
    List.map_congr_left (fun b hb => by rw [h2 b hb]; exact genotype_ref [] h1)
  rw [encodeRow_eq, if_neg (not_not_intro h1), halt]
  simp [hmap]

theorem c8_no_alternate_witness :
    encodeRow "chr" ["9", "G", "G", "G"] =
      .ok (some { chrom := "chr", pos := "9", ref := "G", alt := ".",
                  genotypes := ["0/0", "0/0"] }) := by
  have h := c8_no_alternate "chr" "9" "G" ["G", "G"] (by decide) (by decide)
  simpa using h

/-- C9: the defensive fall-through of the genotype classification is
unreachable — a canonical sample call that differs from the reference is
always a member of the row's discovered alternate list, so classification
resolves to the homozygous-alternate branch (never to the final `./.`
default). -/
theorem c9_defensive_default_unreachable (refBase base : String)
    (sampleBases : List String) (hmem : base ∈ sampleBases)
    (hv : base ∈ validBases) (hne : base ≠ refBase) :
    base ∈ altAlleles refBase sampleBases ∧
    genotype refBase (altAlleles refBase sampleBases) base =
      toString (pyIndex base (altAlleles refBase sampleBases) + 1) ++ "/" ++
        toString (pyIndex base (altAlleles refBase sampleBases) + 1) := by
  have h : base ∈ altAlleles refBase sampleBases := mem_altAlleles.2 ⟨hmem, hv, hne⟩
  exact ⟨h, genotype_alt hv hne h⟩

theorem c9_defensive_default_unreachable_witness :
    "G" ∈ altAlleles "A" ["G", "C"] ∧
    genotype "A" (altAlleles "A" ["G", "C"]) "G" =
      toString (pyIndex "G" (altAlleles "A" ["G", "C"]) + 1) ++ "/" ++
        toString (pyIndex "G" (altAlleles "A" ["G", "C"]) + 1) :=
  c9_defensive_default_unreachable "A" "G" ["G", "C"] (by decide) (by decide) (by decide)

/-! ## Claim theorems: rows are not checked against the header (C2) -/

/-- C2 counterexample: the encoder never compares a row's column count
with the header's.  Against a 4-column header, a 3-column row and a
6-column row are both processed (each against its own last column), no
`RowShapeError`-like failure exists, and the run succeeds with one record
per row. -/
theorem c2_row_shape_counterexample :
    ((["1", "A", "A"] : List String).length ≠
        (["pos", "s1", "s2", "REF0"] : List String).length) ∧
    ((["2", "T", "A", "G", "T", "T"] : List String).length ≠
        (["pos", "s1", "s2", "REF0"] : List String).length) ∧
    tsv_to_vcf "chr" ["pos", "s1", "s2", "REF0"]
        [["1", "A", "A"], ["2", "T", "A", "G", "T", "T"]] =
      .ok (["s1", "s2"], "REF0",
        [{ chrom := "chr", pos := "1", ref := "A", alt := ".", genotypes := ["0/0"] },
         { chrom := "chr", pos := "2", ref := "T", alt := "A,G",
           genotypes := ["0/0", "1/1", "2/2", "0/0"] }]) := by decide

/-- C2 (amended): the encode stage performs no column-count validation at
all — every row with a position column and at least one base column is
encoded without error, whatever the header's column count; only a row
with no base columns aborts (a Python `IndexError`, not a shape check). -/
theorem c2_amended (chrom : String) (header : List String)
    (rows : List (List String)) (h : ∀ r ∈ rows, 2 ≤ r.length) :
    ∃ out, tsv_to_vcf chrom header rows = .ok out := by
  suffices H : ∃ recs, encodeRows chrom rows = .ok recs by
    rcases H with ⟨recs, hr⟩
    exact ⟨(samplesOf header, refNameOf header, recs), by rw [tsv_to_vcf, hr]⟩
  induction rows with
  | nil => exact ⟨[], rfl⟩
  | cons r rs ih =>
    rcases encodeRow_isOk (h r (by simp)) chrom with ⟨o, ho⟩
    rcases ih (fun q hq => h q (by simp [hq])) with ⟨recs, hrec⟩
    cases o with
    | none => exact ⟨recs, by simp [encodeRows, ho, hrec]⟩
    | some v => exact ⟨v :: recs, by simp [encodeRows, ho, hrec]⟩

theorem c2_amended_witness :
    ∃ out, tsv_to_vcf "chr" ["pos", "s1", "REF0"] [["1", "A", "C", "G", "A"]] = .ok out :=
  c2_amended "chr" ["pos", "s1", "REF0"] [["1", "A", "C", "G", "A"]] (by decide)

/-! ## Claim theorems: streamer shape behaviour (C1) -/

/-- C1 counterexample: the streamer never checks that the sample arrays
have equal lengths.  With arrays of lengths 1 and 2 it does not fail at
all: `num_positions` is the first sorted sample's length, every chunk
slice of the longer array is clipped to the window, and the run completes
normally with one row. -/
theorem c1_shape_error_counterexample :
    ((['A'] : List Char).length ≠ (['A', 'C'] : List Char).length) ∧
    h5_to_tsv [("a", ['A']), ("b", ['A', 'C'])] chunk_size =
      .ok (["a", "b"], [(1, ['A', 'A'])]) := by decide

/-- C1 (amended): the streamer has no up-front equal-length check.  With
a positive chunk size it aborts with the numpy stack shape error iff some
sample array is shorter than the first sorted sample's array
(`num_positions`); whenever every array reaches `num_positions` — in
particular whenever the first sorted sample's array is a shortest one —
the run completes and emits exactly `num_positions` rows even if the
arrays have unequal lengths (longer arrays' tails are silently ignored). -/
theorem c1_amended (store : Store) (c : Nat) (hne : store ≠ []) (hc : 0 < c) :
    (h5_to_tsv store c = .error .shapeMismatch ↔
      ∃ ds ∈ datasetsOf store, ds.length < numPositions store) ∧
    ((∀ ds ∈ datasetsOf store, numPositions store ≤ ds.length) →
      ∃ rows, h5_to_tsv store c = .ok (sortedNames store, rows) ∧
        rows.length = numPositions store) := by
  constructor
  · constructor
    · intro herr
      by_contra hno
      push_neg at hno
      rw [h5_to_tsv_ok hne hc hno] at herr
      cases herr
    · exact h5_to_tsv_err hne hc
  · intro hlen
    rw [h5_to_tsv_ok hne hc hlen]
    exact ⟨_, rfl, by simp [fullRows]⟩

theorem c1_amended_witness :
    (h5_to_tsv [("a", ['A']), ("b", ['A', 'C'])] 1 = .error .shapeMismatch ↔
      ∃ ds ∈ datasetsOf [("a", ['A']), ("b", ['A', 'C'])],
        ds.length < numPositions [("a", ['A']), ("b", ['A', 'C'])]) ∧
    ((∀ ds ∈ datasetsOf [("a", ['A']), ("b", ['A', 'C'])],
        numPositions [("a", ['A']), ("b", ['A', 'C'])] ≤ ds.length) →
      ∃ rows, h5_to_tsv [("a", ['A']), ("b", ['A', 'C'])] 1 =
          .ok (sortedNames [("a", ['A']), ("b", ['A', 'C'])], rows) ∧
        rows.length = numPositions [("a", ['A']), ("b", ['A', 'C'])]) :=
  c1_amended [("a", ['A']), ("b", ['A', 'C'])] 1 (by decide) (by decide)

/-! ## Claim theorems: streamer completeness and chunk invariance (C4, C5) -/

/-- Each dataset name resolves, via the first matching store entry, to
that entry's array. -/
theorem arrOf_mem {store : Store} {name : String}
    (h : name ∈ store.map Prod.fst) :
    ∃ p ∈ store, p.1 = name ∧ arrOf store name = p.2 := by
  induction store with
  | nil => simp at h
  | cons q qs ih =>
    obtain ⟨k, v⟩ := q
    by_cases hq : name = k
    · subst hq
      exact ⟨(name, v), by simp, rfl,
        by simp [arrOf, List.lookup, beq_self_eq_true]⟩
    · have hbeq : (name == k) = false := beq_eq_false_iff_ne.2 hq
      have h' : name ∈ qs.map Prod.fst := by simpa [hq] using h
      rcases ih h' with ⟨p, hp, hp1, hp2⟩
      refine ⟨p, by simp [hp], hp1, ?_⟩
      simpa [arrOf, List.lookup, hbeq] using hp2

/-- Equal-length stores: every dataset has the common length. -/
theorem datasetsOf_length_eq {store : Store} {N : Nat}
    (hlen : ∀ p ∈ store, p.2.length = N) :
    ∀ ds ∈ datasetsOf store, ds.length = N := by
  intro ds hds
  rcases List.mem_map.1 hds with ⟨name, hname, rfl⟩
  have hmem : name ∈ store.map Prod.fst := (List.mem_insertionSort strLe).1 hname
  rcases arrOf_mem hmem with ⟨p, hp, _, hp2⟩
  rw [hp2]
  exact hlen p hp

/-- Equal-length stores: `num_positions` is the common length. -/
theorem numPositions_eq {store : Store} {N : Nat} (hne : store ≠ [])
    (hlen : ∀ p ∈ store, p.2.length = N) : numPositions store = N := by
  rcases hd : datasetsOf store with _ | ⟨d0, rest⟩
  · exfalso
    have hl := datasetsOf_length store
    rw [hd] at hl
    exact hne (List.length_eq_zero.1 hl.symm)
  · have hmem : d0 ∈ datasetsOf store := by rw [hd]; simp
    have := datasetsOf_length_eq hlen d0 hmem
    rw [numPositions, hd]
    simpa using this

/-- C4: for every equal-length input of `N` positions and every positive
chunk size `c` — including `c` not dividing `N` and `c ≥ N` — the
streamer emits exactly `N` rows whose 1-based positions are
`1, 2, …, N` in strictly increasing order. -/
theorem c4_streamer_completeness (store : Store) (c N : Nat) (hc : 0 < c)
    (hne : store ≠ []) (hlen : ∀ p ∈ store, p.2.length = N) :
    ∃ rows, h5_to_tsv store c = .ok (sortedNames store, rows) ∧
      rows.length = N ∧ rows.map Prod.fst = List.range' 1 N := by
  have hnum := numPositions_eq hne hlen
  have hds := datasetsOf_length_eq hlen
  have hok := h5_to_tsv_ok hne hc (fun ds h => by rw [hnum, hds ds h])
  rw [hok, hnum]
  refine ⟨_, rfl, by simp [fullRows], ?_⟩
  rw [fullRows]
  simp only [List.map_map, Nat.sub_zero]
  have hf : (Prod.fst ∘ fun j =>
      ((j + 1 : Nat), (datasetsOf store).map (fun ds => ds.getD j '?'))) =
      (fun j => 1 + j) := by
    funext j
    simp [Nat.add_comm]
  rw [hf, List.map_add_range']

theorem c4_streamer_completeness_witness :
    ∃ rows, h5_to_tsv [("s1", ['A', 'C', 'G']), ("s2", ['T', 'T', 'T'])] 2 =
        .ok (sortedNames [("s1", ['A', 'C', 'G']), ("s2", ['T', 'T', 'T'])], rows) ∧
      rows.length = 3 ∧ rows.map Prod.fst = List.range' 1 3 :=
  c4_streamer_completeness [("s1", ['A', 'C', 'G']), ("s2", ['T', 'T', 'T'])] 2 3
    (by decide) (by decide) (by decide)

/-- C5: the chunk size is purely a performance parameter — for every
input store and any two positive chunk sizes, the whole pipeline produces
identical results (identical variant records on success, and the same
error on failure). -/
theorem c5_chunk_size_invariance (store : Store) (chrom : String) (c₁ c₂ : Nat)
    (h1 : 0 < c₁) (h2 : 0 < c₂) :
    pipeline store chrom c₁ = pipeline store chrom c₂ := by
  have hh : h5_to_tsv store c₁ = h5_to_tsv store c₂ := by
    by_cases hne : store = []
    · subst hne; rfl
    · by_cases hbad : ∃ ds ∈ datasetsOf store, ds.length < numPositions store
      · rw [h5_to_tsv_err hne h1 hbad, h5_to_tsv_err hne h2 hbad]
      · push_neg at hbad
        rw [h5_to_tsv_ok hne h1 hbad, h5_to_tsv_ok hne h2 hbad]
  rw [pipeline, pipeline, hh]

theorem c5_chunk_size_invariance_witness :
    pipeline [("a", ['A', 'C', 'G']), ("b", ['A', 'A', 'A'])] "chr" 2 =
      pipeline [("a", ['A', 'C', 'G']), ("b", ['A', 'A', 'A'])] "chr" 500000 :=
  c5_chunk_size_invariance [("a", ['A', 'C', 'G']), ("b", ['A', 'A', 'A'])] "chr"
    2 500000 (by decide) (by decide)

/-! ## Claim theorems: the reference track is the last sorted sample (C10) -/

theorem getLastD_mem {l : List String} (hne : l ≠ []) (d : String) :
    l.getLastD d ∈ l := by
  rw [List.getLastD_eq_getLast?, List.getLast?_eq_getLast l hne]
  exact List.getLast_mem hne

/-- C10: the sample whose identifier sorts (code-point lexicographically)
last is the reference track end-to-end: the streamer's header is exactly
the sorted identifiers (no separately appended reference column), the
encoder takes the last header column as the reference name and drops it
from the genotype columns, and in every emitted row the last value is
that sample's array entry at the row's position while the remaining
values are the other samples' entries in sorted order. -/
theorem c10_reference_is_last_sorted (store : Store) (c N : Nat) (hc : 0 < c)
    (hne : store ≠ []) (hlen : ∀ p ∈ store, p.2.length = N) :
    ((sortedNames store).getLastD "" ∈ store.map Prod.fst ∧
      ∀ nm ∈ store.map Prod.fst, strLe nm ((sortedNames store).getLastD "")) ∧
    refNameOf ("pos" :: sortedNames store) = (sortedNames store).getLastD "" ∧
    samplesOf ("pos" :: sortedNames store) = (sortedNames store).dropLast ∧
    ∃ rows, h5_to_tsv store c = .ok (sortedNames store, rows) ∧
      ∀ r ∈ rows,
        r.2.getLastD '?' =
          (arrOf store ((sortedNames store).getLastD "")).getD (r.1 - 1) '?' ∧
        r.2.dropLast =
          ((sortedNames store).dropLast).map
            (fun nm => (arrOf store nm).getD (r.1 - 1) '?') := by
  have hnames_ne : sortedNames store ≠ [] := by
    intro h0
    have hl : (sortedNames store).length = store.length := by
      simp [sortedNames,
        (List.perm_insertionSort strLe (store.map Prod.fst)).length_eq]
    rw [h0] at hl
    exact hne (List.length_eq_zero.1 hl.symm)
  have hlast_eq : (sortedNames store).getLastD "" =
      (sortedNames store).getLast hnames_ne := by
    rw [List.getLastD_eq_getLast?, List.getLast?_eq_getLast _ hnames_ne]
    rfl
  have hm_names : (sortedNames store).getLastD "" ∈ sortedNames store :=
    getLastD_mem hnames_ne ""
  have hsorted : (sortedNames store).Sorted strLe :=
    List.sorted_insertionSort strLe (store.map Prod.fst)
  refine ⟨⟨(List.mem_insertionSort strLe).1 hm_names, fun nm hnm => ?_⟩, ?_, ?_, ?_⟩
  · exact strLe_getLastD_of_sorted hsorted ((List.mem_insertionSort strLe).2 hnm) ""
  · rw [refNameOf, List.getLastD_cons, hlast_eq, List.getLastD_eq_getLast?,
      List.getLast?_eq_getLast _ hnames_ne]
    rfl
  · rw [samplesOf]
    rfl
  · have hnum := numPositions_eq hne hlen
    have hds := datasetsOf_length_eq hlen
    have hok := h5_to_tsv_ok hne hc (fun ds h => by rw [hnum, hds ds h])
    rw [hok, hnum]
    refine ⟨_, rfl, ?_⟩
    intro r hr
    rw [fullRows] at hr
    rcases List.mem_map.1 hr with ⟨j, _, rfl⟩
    constructor
    · show ((datasetsOf store).map (fun ds => ds.getD j '?')).getLastD '?' =
        (arrOf store ((sortedNames store).getLastD "")).getD (j + 1 - 1) '?'
      rw [datasetsOf, List.map_map, List.getLastD_eq_getLast?, List.getLast?_map,
        List.getLast?_eq_getLast _ hnames_ne, hlast_eq, Nat.add_sub_cancel]
      rfl
    · show ((datasetsOf store).map (fun ds => ds.getD j '?')).dropLast =
        ((sortedNames store).dropLast).map
          (fun nm => (arrOf store nm).getD (j + 1 - 1) '?')
      rw [datasetsOf, List.map_map, ← List.map_dropLast, Nat.add_sub_cancel]
      rfl

theorem c10_reference_is_last_sorted_witness :
    ((sortedNames [("s2", ['A']), ("s1", ['C'])]).getLastD "" ∈
        [("s2", ['A']), ("s1", ['C'])].map Prod.fst ∧
      ∀ nm ∈ [("s2", ['A']), ("s1", ['C'])].map Prod.fst,
        strLe nm ((sortedNames [("s2", ['A']), ("s1", ['C'])]).getLastD "")) ∧
    refNameOf ("pos" :: sortedNames [("s2", ['A']), ("s1", ['C'])]) =
      (sortedNames [("s2", ['A']), ("s1", ['C'])]).getLastD "" ∧
    samplesOf ("pos" :: sortedNames [("s2", ['A']), ("s1", ['C'])]) =
      (sortedNames [("s2", ['A']), ("s1", ['C'])]).dropLast ∧
    ∃ rows, h5_to_tsv [("s2", ['A']), ("s1", ['C'])] 3 =
        .ok (sortedNames [("s2", ['A']), ("s1", ['C'])], rows) ∧
      ∀ r ∈ rows,
        r.2.getLastD '?' =
          (arrOf [("s2", ['A']), ("s1", ['C'])]
            ((sortedNames [("s2", ['A']), ("s1", ['C'])]).getLastD "")).getD
            (r.1 - 1) '?' ∧
        r.2.dropLast =
          ((sortedNames [("s2", ['A']), ("s1", ['C'])]).dropLast).map
            (fun nm => (arrOf [("s2", ['A']), ("s1", ['C'])] nm).getD (r.1 - 1) '?') :=
  c10_reference_is_last_sorted [("s2", ['A']), ("s1", ['C'])] 3 1
    (by decide) (by decide) (by decide)

end PannagramVcf
